import Mathlib

/-!
Verification of the Lotus GPU miner core (`lotusd/gpuminer`).

Shallow embedding of the Rust sources under `gpuminer/lotus-miner-lib` and
`gpuminer/lotus-miner-cli` into Lean 4, together with theorems checking the
natural-language specification against the code.

Bytes are modelled as `Nat` values, with `< 256` well-formedness hypotheses
where a statement needs them.  Machine integers (`u32`, `u64`) are `Nat` with
explicit `% 2 ^ 32` / `% 2 ^ 64` where the Rust code can wrap, and checked
operations return `Option`.  Code that can panic (`unwrap`) is modelled with
`Except`.  The externally-provided hash functions (`sha2::Sha256` and the
crate-internal `sha256::lotus_hash`, which is not part of the sources under
review) are universally-quantified function parameters.
-/

namespace LotusMiner

/-! Byte-level utilities modelling the Rust `to_le_bytes` / `from_le_bytes` /
`swap_bytes` primitives as used by the miner. -/

/-- Little-endian byte decomposition: `toLeBytes k n` is the list of the `k`
low-order bytes of `n`, least significant first (Rust `n.to_le_bytes()` for a
`k`-byte integer). -/
def toLeBytes (k : Nat) (n : Nat) : List Nat :=
  (List.range k).map (fun i => n / 256 ^ i % 256)

/-- Little-endian byte recomposition (Rust `uN::from_le_bytes`). -/
def fromLeBytes (bs : List Nat) : Nat :=
  bs.foldr (fun b acc => b + 256 * acc) 0

/-- Rust `u32::swap_bytes`: reverse the four bytes of a 32-bit word. -/
def swapBytes32 (w : Nat) : Nat :=
  (w % 256) * 2 ^ 24 + (w / 2 ^ 8 % 256) * 2 ^ 16 +
    (w / 2 ^ 16 % 256) * 2 ^ 8 + (w / 2 ^ 24 % 256)

/-- The Rust cast `i32 as u64` (sign-extension): the value modulo `2 ^ 64`. -/
def i32AsU64 (i : Int) : Nat := (i % (2 ^ 64 : Int)).toNat

/-- The Rust cast `iN as uN` reinterpretation used for `i32` / `i64`
little-endian serialization: value modulo `2 ^ (8k)`, then bytes. -/
def intToLeBytes (k : Nat) (v : Int) : List Nat :=
  toLeBytes k (v % ((2 : Int) ^ (8 * k))).toNat

/-- `u32::checked_mul`: `some` of the product exactly when it fits in 32
bits. -/
def checkedMulU32 (a b : Nat) : Option Nat :=
  if a * b < 2 ^ 32 then some (a * b) else none

/-- `u64 → u32` conversion via `try_into()`: succeeds exactly when the value
fits in 32 bits. -/
def tryIntoU32 (n : Nat) : Option Nat :=
  if n < 2 ^ 32 then some n else none

/-- `hex` crate digit decoding: value of one hexadecimal character. -/
def hexDigitVal (c : Char) : Option Nat :=
  if '0' ≤ c ∧ c ≤ '9' then some (c.toNat - '0'.toNat)
  else if 'a' ≤ c ∧ c ≤ 'f' then some (c.toNat - 'a'.toNat + 10)
  else if 'A' ≤ c ∧ c ≤ 'F' then some (c.toNat - 'A'.toNat + 10)
  else none

/-- `hex::decode`: two hex characters per byte; fails on an odd-length input
or on a non-hex character. -/
def hexDecode : List Char → Option (List Nat)
  | [] => some []
  | [_] => none
  | c1 :: c2 :: rest =>
    match hexDigitVal c1, hexDigitVal c2, hexDecode rest with
    | some hi, some lo, some bs => some ((16 * hi + lo) :: bs)
    | _, _, _ => none

/-! The `Work` struct and its methods (gpuminer/lotus-miner-lib/src/miner.rs).

```rust
pub struct Work {
    header: [u8; 160],
    target: [u8; 32],
    pub nonce_idx: u32,
}
```
-/

structure Work where
  header : List Nat
  target : List Nat
  nonce_idx : Nat
  deriving DecidableEq, Repr

/-- `Work::from_header` (miner.rs): `Work { header, target, nonce_idx: 0 }`. -/
def Work.from_header (header : List Nat) (target : List Nat) : Work :=
  { header := header, target := target, nonce_idx := 0 }

/-- `Work::set_big_nonce` (miner.rs):
`self.header[44..52].copy_from_slice(&big_nonce.to_le_bytes());` —
overwrite header bytes [44..52) with the eight little-endian bytes of the
`u64` big-nonce, leaving the rest of the struct untouched. -/
def Work.set_big_nonce (w : Work) (big_nonce : Nat) : Work :=
  { w with header := w.header.take 44 ++ toLeBytes 8 big_nonce ++ w.header.drop 52 }

/-! `MiningSettings` and the `Miner` batch logic (miner.rs).  The OpenCL
state (context, queue, program, buffers) is external I/O and does not enter
the value-level model; the GPU output buffer is an input of
`findNonceVerify`. -/

inductive KernelType
  | LotusOG
  | POCLBM
  deriving DecidableEq, Repr

structure MiningSettings where
  local_work_size : Int
  kernel_size : Nat
  inner_iter_size : Int
  sleep : Nat
  gpu_indices : List Nat
  kernel_type : KernelType
  deriving Repr

/-- `Miner::num_nonces_per_search` (miner.rs):
`self.settings.kernel_size as u64 * self.settings.inner_iter_size as u64`
(`u64` multiplication, wrapping). -/
def num_nonces_per_search (s : MiningSettings) : Nat :=
  s.kernel_size * i32AsU64 s.inner_iter_size % 2 ^ 64

/-- `Miner::has_nonces_left` (miner.rs):
`work.nonce_idx.checked_mul(self.settings.kernel_size).is_some()`. -/
def has_nonces_left (s : MiningSettings) (work : Work) : Bool :=
  (checkedMulU32 work.nonce_idx s.kernel_size).isSome

/-- The base-offset computation at the top of `Miner::find_nonce` (miner.rs):

```rust
let base = match work.nonce_idx
    .checked_mul(self.num_nonces_per_search().try_into().unwrap()) {
    Some(base) => base,
    None => { log.error("... Nonce base overflow, skipping ..."); return Ok(None); }
};
```

`Except.error ()` models the `unwrap` panic, which fires when
`num_nonces_per_search` does not fit in a `u32`; `Except.ok none` is the
logged no-nonce return; `Except.ok (some base)` continues the batch with
offset `base`. -/
def findNonceBase (s : MiningSettings) (work : Work) : Except Unit (Option Nat) :=
  match tryIntoU32 (num_nonces_per_search s) with
  | none => .error ()
  | some nps =>
    match checkedMulU32 work.nonce_idx nps with
    | none => .ok none
    | some base => .ok (some base)

/-- The hash/target comparison loop of `Miner::find_nonce` (miner.rs),
run on the pairs `hash.iter().zip(work.target.iter()).rev()`:

```rust
for (&h, &t) in hash.iter().zip(work.target.iter()).rev() {
    if h > t { continue 'nonce; }
    if t > h { ... return Ok(Some(result_nonce)); }
}
```

Falling off the end of the pairs (all compared bytes equal) continues with
the next candidate, i.e. rejects. -/
def cmpLoop : List (Nat × Nat) → Bool
  | [] => false
  | (h, t) :: rest => if h > t then false else if t > h then true else cmpLoop rest

/-- The candidate header built inside the `'nonce` loop (miner.rs):
`header[44..48].copy_from_slice(&nonce.to_le_bytes());` on a copy of
`work.header` — bytes [44..48) hold the 32-bit candidate little-endian while
bytes [48..52) keep the work's big-nonce base. -/
def candidateHeader (header : List Nat) (nonce : Nat) : List Nat :=
  header.take 44 ++ toLeBytes 4 nonce ++ header.drop 48

/-- The `'nonce` candidate loop of `Miner::find_nonce` over `&vec[..0x7f]`:
skip zero words, byte-swap (`nonce.swap_bytes()`), rebuild the header, hash
with `lotus_hash` and accept via `cmpLoop`; the accepted return value is
`u64::from_le_bytes(header[44..52])`.  The trailing-zero-byte sanity check
only logs a bug message and does not alter control flow, so it does not
appear at the value level.  `lotusHash` stands for the crate function
`sha256::lotus_hash` (its module is not among the sources under review). -/
def findNonceLoop (lotusHash : List Nat → List Nat) (work : Work) :
    List Nat → Option Nat
  | [] => none
  | w :: ws =>
    let nonce := swapBytes32 w
    if nonce ≠ 0 then
      let header := candidateHeader work.header nonce
      if cmpLoop (((lotusHash header).zip work.target).reverse) then
        some (fromLeBytes ((header.drop 44).take 8))
      else findNonceLoop lotusHash work ws
    else findNonceLoop lotusHash work ws

/-- The candidate-verification tail of `Miner::find_nonce` (miner.rs):

```rust
if vec[0x80] != 0 {
    let mut header = work.header;
    'nonce: for &nonce in &vec[..0x7f] { ... }
}
Ok(None)
```

The GPU output buffer `vec` (255 `u32` words) is an input here: the kernel
that fills it is an opaque external program. -/
def findNonceVerify (lotusHash : List Nat → List Nat) (work : Work)
    (vec : List Nat) : Option Nat :=
  if vec.getD 0x80 0 ≠ 0 then findNonceLoop lotusHash work (vec.take 0x7f)
  else none

/-! `bits_to_target` (gpuminer/lotus-miner-cli/src/main.rs).

```rust
fn bits_to_target(bits: u32) -> [u8; 32] {
    let exponent = (bits >> 24) as usize;
    let mantissa = bits & 0x00ffffff;
    let mut target = [0xffu8; 32];
    if exponent <= 3 {
        let value = mantissa >> (8 * (3 - exponent));
        target[29] = (value & 0xff) as u8;
        target[30] = ((value >> 8) & 0xff) as u8;
        target[31] = ((value >> 16) & 0xff) as u8;
    } else {
        let size = exponent - 3;
        if size < 32 {
            for i in 0..(32 - size) { target[i] = 0; }
            let offset = 32 - size;
            if offset >= 3 {
                target[offset - 3] = ((mantissa >> 16) & 0xff) as u8;
                target[offset - 2] = ((mantissa >> 8) & 0xff) as u8;
                target[offset - 1] = (mantissa & 0xff) as u8;
            }
        }
    }
    target
}
```
-/

def bits_to_target (bits : Nat) : List Nat :=
  let exponent := bits / 2 ^ 24
  let mantissa := bits % 2 ^ 24
  let target := List.replicate 32 0xff
  if exponent ≤ 3 then
    let value := mantissa / 256 ^ (3 - exponent)
    ((target.set 29 (value % 256)).set 30 (value / 2 ^ 8 % 256)).set 31
      (value / 2 ^ 16 % 256)
  else
    let size := exponent - 3
    if size < 32 then
      let target := (List.range (32 - size)).foldl (fun t i => t.set i 0) target
      let offset := 32 - size
      if 3 ≤ offset then
        ((target.set (offset - 3) (mantissa / 2 ^ 16 % 256)).set (offset - 2)
          (mantissa / 2 ^ 8 % 256)).set (offset - 1) (mantissa % 256)
      else target
    else target

/-- The target array claimed by the specification sentence for
`bits_to_target`, written from the claim's words for comparison with the
source function: a zero-initialized big-endian 32-byte array; for
`exp ≤ 3` the value `mant >> (8 × (3 − exp))` sits in the lowest three bytes
(indices 29..31, most significant first); for `exp > 3` the mantissa's three
bytes occupy positions `[32 − exp − 3 .. 32 − exp)`, most significant
first. -/
def bitsToTargetClaimed (bits : Nat) : List Nat :=
  let exp := bits / 2 ^ 24
  let mant := bits % 2 ^ 24
  if exp ≤ 3 then
    let value := mant / 256 ^ (3 - exp)
    (List.range 32).map (fun i =>
      if i = 29 then value / 2 ^ 16 % 256
      else if i = 30 then value / 2 ^ 8 % 256
      else if i = 31 then value % 256
      else 0)
  else
    (List.range 32).map (fun i =>
      if i + exp + 3 = 32 then mant / 2 ^ 16 % 256
      else if i + exp + 2 = 32 then mant / 2 ^ 8 % 256
      else if i + exp + 1 = 32 then mant % 256
      else 0)

/-! Block parsing (gpuminer/lotus-miner-lib/src/block.rs). -/

inductive BlockParseError
  | InvalidBlockHex
  | InvalidTargetHex
  | InvalidTargetLength (got : Nat)
  | BlockTooShort (got : Nat)
  deriving DecidableEq, Repr

structure Block where
  header : List Nat
  body : List Nat
  target : List Nat
  deriving DecidableEq, Repr

structure RawUnsolvedBlockAndTarget where
  blockhex : List Char
  target : List Char
  deriving DecidableEq, Repr

structure GetRawUnsolvedBlockResponse where
  result : Option RawUnsolvedBlockAndTarget
  error : Option (List Char)
  deriving DecidableEq, Repr

/-- `create_block` (block.rs): decode `blockhex`, check the 160-byte header
bound, decode `target`, check the 32-byte length, reverse the target, and
split the block into `header = [0..160)` and `body = [160..)`.  The error
message payloads carried by the Rust variants are dropped. -/
def create_block (u : RawUnsolvedBlockAndTarget) : Except BlockParseError Block :=
  match hexDecode u.blockhex with
  | none => .error .InvalidBlockHex
  | some block =>
    if block.length < 160 then .error (.BlockTooShort block.length)
    else
      match hexDecode u.target with
      | none => .error .InvalidTargetHex
      | some target_bytes =>
        if target_bytes.length ≠ 32 then
          .error (.InvalidTargetLength target_bytes.length)
        else
          .ok { header := block.take 160, body := block.drop 160,
                target := target_bytes.reverse }

/-! `BlockState` and the work fetcher (gpuminer/lotus-miner-lib/src/lib.rs). -/

structure BlockState where
  current_work : Work
  current_block : Option Block
  next_block : Option Block
  extra_nonce : Nat
  deriving DecidableEq, Repr

/-- The state-transforming content of `update_next_block` (lib.rs), from the
point where the HTTP response and its body are available.  `status` is the
HTTP status code and `parsed` the `serde_json` parse of the body (`none` for
invalid JSON).  In the source:

* a body that fails to parse as `GetRawUnsolvedBlockResponse` is logged
  (with an extra hint when `status == 401`) and the function returns
  `Ok(())` without touching the state;
* a parsed response with `result: None` is logged and returns `Ok(())`;
* a `create_block` failure is logged and returns `Ok(())`;
* otherwise `extra_nonce` is incremented (`u64` add) and `next_block` is
  replaced — `current_work` and `current_block` are never written here.

Every modelled branch corresponds to a `return Ok(())` in the source, so no
error is propagated to the caller from these paths; the `?` operators on
`send()` / `text()` fire before a response exists and are outside this
model. -/
def update_next_block (status : Nat) (parsed : Option GetRawUnsolvedBlockResponse)
    (st : BlockState) : BlockState :=
  match status, parsed with
  | _, none => st
  | _, some response =>
    match response.result with
    | none => st
    | some unsolved_block =>
      match create_block unsolved_block with
      | .error _ => st
      | .ok block =>
        { st with extra_nonce := (st.extra_nonce + 1) % 2 ^ 64,
                  next_block := some block }

/-! Genesis block construction (gpuminer/lotus-miner-lib/src/genesis_miner.rs).
`sha` stands for the external `sha2::Sha256::digest`. -/

def SATOSHI : Int := 1

def LOTUS : Int := 1000000 * SATOSHI

def SUBSIDY : Int := 260 * LOTUS

/-- `COINBASE_PREFIX` from the source: the bytes of `"logos"`. -/
def COINBASE_PREFIX_BYTES : List Nat := [0x6c, 0x6f, 0x67, 0x6f, 0x73]

def OP_RETURN : Nat := 0x6a

def OP_CHECKSIG : Nat := 0xac

/-- `GENESIS_SCRIPT_SIG.as_bytes()`. -/
def GENESIS_SCRIPT_SIG : List Nat :=
  "John 1:1 In the beginning was the Logos".toList.map Char.toNat

def GENESIS_OUTPUT_0_HASH : List Char :=
  "ffe330c4b7643e554c62adcbe0b80537435d888b5c33d5e29a70cdd743e3a093".toList

def GENESIS_OUTPUT_1_PUBKEY : List Char :=
  ("04678afdb0fe5548271967f1a67130b7105cd6a828e03909a67962e0ea1f61deb649f6b" ++
   "c3f4cef38c4f35504e51ec112de5c384df7ba0b8d578a4c702b6bf11d5f").toList

structure TxIn where
  prevout_hash : List Nat
  prevout_n : Nat
  script_sig : List Nat
  sequence : Nat
  deriving Repr

structure TxOut where
  value : Int
  script_pubkey : List Nat
  deriving Repr

structure Transaction where
  version : Int
  vin : List TxIn
  vout : List TxOut
  lock_time : Nat
  deriving Repr

/-- `encode_compact_size` (genesis_miner.rs): the Bitcoin compact-size
integer encoding.  The casts `size as u8` / `as u16` / `as u32` / `as u64`
truncate, hence the explicit `% 2 ^ k`. -/
def encode_compact_size (size : Nat) : List Nat :=
  if size < 0xfd then [size % 256]
  else if size ≤ 0xffff then 0xfd :: toLeBytes 2 (size % 2 ^ 16)
  else if size ≤ 0xffffffff then 0xfe :: toLeBytes 4 (size % 2 ^ 32)
  else 0xff :: toLeBytes 8 (size % 2 ^ 64)

/-- One serialized `CTxIn` (genesis_miner.rs, `Transaction::serialize`). -/
def serializeTxIn (i : TxIn) : List Nat :=
  i.prevout_hash ++ toLeBytes 4 i.prevout_n ++
    encode_compact_size i.script_sig.length ++ i.script_sig ++
    toLeBytes 4 i.sequence

/-- One serialized `CTxOut` (genesis_miner.rs, `Transaction::serialize`). -/
def serializeTxOut (o : TxOut) : List Nat :=
  intToLeBytes 8 o.value ++ encode_compact_size o.script_pubkey.length ++
    o.script_pubkey

/-- `Transaction::serialize` (genesis_miner.rs): version, compact-size input
count, inputs, compact-size output count, outputs, lock time. -/
def Transaction.serialize (tx : Transaction) : List Nat :=
  intToLeBytes 4 tx.version ++
    encode_compact_size tx.vin.length ++ (tx.vin.map serializeTxIn).flatten ++
    encode_compact_size tx.vout.length ++ (tx.vout.map serializeTxOut).flatten ++
    toLeBytes 4 tx.lock_time

/-- Double SHA-256 over a byte vector, as in `Transaction::get_hash` and
`compute_serialize_hash`. -/
def sha256d (sha : List Nat → List Nat) (d : List Nat) : List Nat := sha (sha d)

/-- `Transaction::get_hash` (genesis_miner.rs). -/
def Transaction.get_hash (sha : List Nat → List Nat) (tx : Transaction) :
    List Nat :=
  sha256d sha tx.serialize

/-- `Transaction::get_id` (genesis_miner.rs): same as the hash for v1
transactions. -/
def Transaction.get_id (sha : List Nat → List Nat) (tx : Transaction) :
    List Nat :=
  tx.get_hash sha

/-- The little-endian magnitude bytes of a positive integer (the
`while abs_value > 0` loop of `encode_script_int`). -/
def bytesOfNat (n : Nat) : List Nat :=
  if h : n = 0 then [] else n % 256 :: bytesOfNat (n / 256)
termination_by n
decreasing_by exact Nat.div_lt_self (Nat.pos_of_ne_zero h) (by norm_num)

/-- `encode_script_int` (genesis_miner.rs): minimal Bitcoin script-number
encoding with a sign bit in the top byte. -/
def encode_script_int (value : Int) : List Nat :=
  if value = 0 then []
  else
    let negative := value < 0
    let result := bytesOfNat value.natAbs
    if (result.getLast?.getD 0) &&& 0x80 ≠ 0 then
      result ++ [if negative then 0x80 else 0x00]
    else if negative then
      result.dropLast ++ [(result.getLast?.getD 0) ||| 0x80]
    else result

/-- `build_genesis_output_0_script` (genesis_miner.rs):
`OP_RETURN`, push of `COINBASE_PREFIX`, height (OP_0 for height zero, else a
length-prefixed minimal script integer), and the pushed 32-byte hash.  Each
pushed length is a `len() as u8`. -/
def build_genesis_output_0_script (height : Int) : List Nat :=
  let hash := (hexDecode GENESIS_OUTPUT_0_HASH).getD []
  [OP_RETURN] ++
    (COINBASE_PREFIX_BYTES.length % 256 :: COINBASE_PREFIX_BYTES) ++
    (if height = 0 then [0x00]
     else
       let height_bytes := encode_script_int height
       height_bytes.length % 256 :: height_bytes) ++
    (hash.length % 256 :: hash)

/-- `build_genesis_output_1_script` (genesis_miner.rs): the pushed 65-byte
public key followed by `OP_CHECKSIG`. -/
def build_genesis_output_1_script : List Nat :=
  let pubkey := (hexDecode GENESIS_OUTPUT_1_PUBKEY).getD []
  (pubkey.length % 256 :: pubkey) ++ [OP_CHECKSIG]

/-- `create_genesis_transaction` (genesis_miner.rs): the canonical coinbase
transaction — version 1, one null-prevout input carrying the pushed script
signature text, two outputs of `SUBSIDY / 2` each, lock time 0. -/
def create_genesis_transaction : Transaction :=
  let script_sig_data := GENESIS_SCRIPT_SIG
  let script_sig := script_sig_data.length % 256 :: script_sig_data
  let coinbase_input : TxIn :=
    { prevout_hash := List.replicate 32 0
      prevout_n := 0xffffffff
      script_sig := script_sig
      sequence := 0xffffffff }
  let output_0 : TxOut :=
    { value := SUBSIDY / 2, script_pubkey := build_genesis_output_0_script 0 }
  let output_1 : TxOut :=
    { value := SUBSIDY / 2, script_pubkey := build_genesis_output_1_script }
  { version := 1, vin := [coinbase_input], vout := [output_0, output_1],
    lock_time := 0 }

/-- One merkle leaf (genesis_miner.rs, `compute_merkle_root`):
`SHA256²(reverse(tx_hash) ++ reverse(tx_id))`. -/
def merkleLeaf (sha : List Nat → List Nat) (tx : Transaction) : List Nat :=
  sha256d sha ((tx.get_hash sha).reverse ++ (tx.get_id sha).reverse)

/-- One level of the merkle tree (genesis_miner.rs): hash adjacent pairs,
pairing an odd tail with 32 zero bytes. -/
def merklePairs (sha : List Nat → List Nat) : List (List Nat) → List (List Nat)
  | [] => []
  | [x] => [sha256d sha (x ++ List.replicate 32 0)]
  | x :: y :: rest => sha256d sha (x ++ y) :: merklePairs sha rest

/-- The `while hashes.len() > 1` reduction of `compute_merkle_root`
(genesis_miner.rs), ending in `hashes[0]`.  The `[]` case is unreachable
from `compute_merkle_root`, which guards against an empty transaction
list. -/
def merkleLoop (sha : List Nat → List Nat) (hs : List (List Nat)) : List Nat :=
  if hs.length ≤ 1 then hs.headD (List.replicate 32 0)
  else merkleLoop sha (merklePairs sha hs)
termination_by hs.length
decreasing_by
  rename_i hlen
  have key : ∀ fuel (l : List (List Nat)), l.length ≤ fuel →
      (merklePairs sha l).length = (l.length + 1) / 2 := by
    intro fuel
    induction fuel with
    | zero =>
        intro l hl
        have : l = [] := List.length_eq_zero.mp (Nat.le_zero.mp hl)
        subst this
        simp [merklePairs]
    | succ m ih =>
        intro l hl
        cases l with
        | nil => simp [merklePairs]
        | cons x xs =>
            cases xs with
            | nil => simp [merklePairs]
            | cons y rest =>
                have hr : rest.length ≤ m := by
                  simp only [List.length_cons] at hl
                  omega
                simp only [merklePairs, List.length_cons, ih rest hr]
                omega
  have hk := key hs.length hs le_rfl
  omega

/-- `compute_merkle_root` (genesis_miner.rs): 32 zero bytes for an empty
transaction list, otherwise the pair-hash reduction of the leaves. -/
def compute_merkle_root (sha : List Nat → List Nat) (txs : List Transaction) :
    List Nat :=
  if txs.isEmpty then List.replicate 32 0
  else merkleLoop sha (txs.map (merkleLeaf sha))

/-- `serialize_extended_metadata` (genesis_miner.rs): a single compact-size
zero byte. -/
def serialize_extended_metadata : List Nat := [0x00]

/-- `compute_serialize_hash` (genesis_miner.rs): double SHA-256. -/
def compute_serialize_hash (sha : List Nat → List Nat) (data : List Nat) :
    List Nat :=
  sha (sha data)

/-- `serialize_block_body` (genesis_miner.rs): metadata, compact-size
transaction count, transactions. -/
def serialize_block_body (metadata : List Nat) (txs : List Transaction) :
    List Nat :=
  metadata ++ encode_compact_size txs.length ++
    (txs.map Transaction.serialize).flatten

/-- `build_genesis_block_header` (genesis_miner.rs): the 160-byte header.
The source zero-initializes the array and skips offsets for the all-zero
fields; the appended zero runs below reproduce that layout byte by byte. -/
def build_genesis_block_header (n_bits : Nat) (n_time : Nat) (n_nonce : Nat)
    (merkle_root : List Nat) (extended_metadata_hash : List Nat)
    (block_size : Nat) : List Nat :=
  List.replicate 32 0 ++
    toLeBytes 4 n_bits ++
    toLeBytes 6 n_time ++
    List.replicate 2 0 ++
    toLeBytes 8 n_nonce ++
    [1] ++
    toLeBytes 7 block_size ++
    List.replicate 4 0 ++
    List.replicate 32 0 ++
    merkle_root.reverse ++
    extended_metadata_hash.reverse

structure GenesisBlock where
  header : List Nat
  body : List Nat
  target : List Nat
  deriving Repr

/-- Ambient process state available to the miner (wall clock, RNG).
`create_genesis_block` reads none of it; passing it explicitly makes the
determinism of the construction expressible as a theorem. -/
structure Env where
  now : Nat
  rng : Nat
  deriving DecidableEq, Repr

set_option linter.unusedVariables false in
/-- `create_genesis_block` (genesis_miner.rs): build the coinbase
transaction, merkle root, extended-metadata hash, body, block size, and the
header with initial nonce 0. -/
def create_genesis_block (env : Env) (sha : List Nat → List Nat)
    (n_bits : Nat) (n_time : Nat) (target : List Nat) : GenesisBlock :=
  let genesis_tx := create_genesis_transaction
  let txs := [genesis_tx]
  let merkle_root := compute_merkle_root sha txs
  let metadata := serialize_extended_metadata
  let extended_metadata_hash := compute_serialize_hash sha metadata
  let body := serialize_block_body metadata txs
  let block_size := 160 + body.length
  let header := build_genesis_block_header n_bits n_time 0 merkle_root
    extended_metadata_hash block_size
  { header := header, body := body, target := target }

/-! Concrete inputs reused by witnesses and counterexamples. -/

/-- 320 zero hex characters: a minimal valid `blockhex` (160 zero bytes). -/
def zeroBlockHex : List Char := List.replicate 320 '0'

/-- 64 zero hex characters: a valid `target` (32 zero bytes). -/
def zeroTargetHex : List Char := List.replicate 64 '0'

/-- Settings with `kernel_size × inner_iter_size = 2 ^ 33`, exceeding `u32`
range (`kernel_size = 2 ^ 30` is the documented maximum and
`inner_iter_size = 8` is the POCLBM default). -/
def c4Settings : MiningSettings :=
  { local_work_size := 64, kernel_size := 2 ^ 30, inner_iter_size := 8,
    sleep := 0, gpu_indices := [0], kernel_type := .LotusOG }

/-- A work item whose base multiplication overflows under `c4Settings`. -/
def c4Work : Work :=
  { header := List.replicate 160 0, target := List.replicate 32 0,
    nonce_idx := 1 }

/-- A fully parseable `getrawunsolvedblock` response carrying a valid
160-byte all-zero block and a valid 32-byte all-zero target. -/
def c5Response : GetRawUnsolvedBlockResponse :=
  { result := some { blockhex := zeroBlockHex, target := zeroTargetHex },
    error := none }

/-- A quiescent block state with nothing pending. -/
def c5State : BlockState :=
  { current_work := Work.from_header (List.replicate 160 0) (List.replicate 32 0)
    current_block := none
    next_block := none
    extra_nonce := 0 }

/-- A constant stand-in for `lotus_hash` used by witnesses: every header
hashes to 32 zero bytes. -/
def cHash : List Nat → List Nat := fun _ => List.replicate 32 0

/-- A work item whose target has its most significant (index 31) byte set,
so the all-zero hash is strictly below it. -/
def cWork : Work :=
  { header := List.replicate 160 0, target := List.replicate 31 0 ++ [1],
    nonce_idx := 0 }

/-- A GPU output buffer of 255 words, all equal to 1: the found flag at
index `0x80` is set and the first candidate word is 1. -/
def cVec : List Nat := List.replicate 255 1

/-! Theorems. -/

theorem toLeBytes_length (k n : Nat) : (toLeBytes k n).length = k := by
  simp [toLeBytes]

theorem toLeBytes_lt (k n : Nat) : ∀ b ∈ toLeBytes k n, b < 256 := by
  intro b hb
  simp only [toLeBytes, List.mem_map] at hb
  obtain ⟨i, _, rfl⟩ := hb
  exact Nat.mod_lt _ (by norm_num)

theorem fromLeBytes_nil : fromLeBytes [] = 0 := rfl

theorem fromLeBytes_cons (b : Nat) (bs : List Nat) :
    fromLeBytes (b :: bs) = b + 256 * fromLeBytes bs := rfl

theorem fromLeBytes_append (a b : List Nat) :
    fromLeBytes (a ++ b) = fromLeBytes a + 256 ^ a.length * fromLeBytes b := by
  induction a with
  | nil => simp [fromLeBytes]
  | cons x xs ih =>
      simp only [List.cons_append, fromLeBytes_cons, ih, List.length_cons]
      ring

theorem fromLeBytes_lt (bs : List Nat) (h : ∀ b ∈ bs, b < 256) :
    fromLeBytes bs < 256 ^ bs.length := by
  induction bs with
  | nil => simp [fromLeBytes]
  | cons x xs ih =>
      have hx : x < 256 := h x (by simp)
      have hxs : fromLeBytes xs < 256 ^ xs.length := ih (fun b hb => h b (by simp [hb]))
      calc fromLeBytes (x :: xs) = x + 256 * fromLeBytes xs := rfl
        _ < 256 + 256 * fromLeBytes xs := by omega
        _ = 256 * (fromLeBytes xs + 1) := by ring
        _ ≤ 256 * 256 ^ xs.length := by
              have : fromLeBytes xs + 1 ≤ 256 ^ xs.length := hxs
              exact Nat.mul_le_mul_left _ this
        _ = 256 ^ (x :: xs).length := by rw [List.length_cons]; ring

theorem fromLeBytes_toLeBytes (k n : Nat) (h : n < 256 ^ k) :
    fromLeBytes (toLeBytes k n) = n := by
  induction k generalizing n with
  | zero => simp at h; simp [toLeBytes, fromLeBytes, h]
  | succ m ih =>
      have hrange : toLeBytes (m + 1) n = n % 256 :: toLeBytes m (n / 256) := by
        simp only [toLeBytes, List.range_succ_eq_map, List.map_cons, List.map_map]
        congr 1
        · simp
        · apply List.map_congr_left
          intro i _
          simp only [Function.comp_apply]
          rw [Nat.div_div_eq_div_mul, pow_succ, Nat.mul_comm]
      rw [hrange, fromLeBytes_cons, ih (n / 256) (by
        have : 256 ^ (m + 1) = 256 * 256 ^ m := by ring
        omega)]
      omega

theorem toLeBytes_mod (k n m : Nat) (hk : k ≤ m) :
    toLeBytes k (n % 256 ^ m) = toLeBytes k n := by
  simp only [toLeBytes]
  apply List.map_congr_left
  intro i hi
  simp only [List.mem_range] at hi
  have h1 : (256 : Nat) ^ m = 256 ^ i * 256 ^ (m - i) := by
    rw [← pow_add]
    congr 1
    omega
  rw [h1, Nat.mod_mul_right_div_self]
  have h3 : (256 : Nat) ∣ 256 ^ (m - i) := dvd_pow_self 256 (by omega)
  exact Nat.mod_mod_of_dvd _ h3

theorem swapBytes32_lt (w : Nat) : swapBytes32 w < 2 ^ 32 := by
  have h1 : w % 256 < 256 := Nat.mod_lt _ (by norm_num)
  have h2 : w / 2 ^ 8 % 256 < 256 := Nat.mod_lt _ (by norm_num)
  have h3 : w / 2 ^ 16 % 256 < 256 := Nat.mod_lt _ (by norm_num)
  have h4 : w / 2 ^ 24 % 256 < 256 := Nat.mod_lt _ (by norm_num)
  simp only [swapBytes32]
  omega

theorem take_append_of_length (xs ys : List Nat) (k : Nat) (hk : xs.length = k) :
    (xs ++ ys).take k = xs := by
  subst hk
  exact List.take_left xs ys

theorem drop_append_of_length (xs ys : List Nat) (k : Nat) (hk : xs.length = k) :
    (xs ++ ys).drop k = ys := by
  subst hk
  exact List.drop_left xs ys

/-! Claim C7: `encode_compact_size`. -/

/-- C7: for every `n` in `[0, 2 ^ 64)`, `encode_compact_size n` produces
exactly the Bitcoin compact-size encoding: a single byte when `n < 0xFD`;
the byte `0xFD` followed by `n` as a little-endian `u16` when `n ≤ 0xFFFF`;
the byte `0xFE` followed by `n` as a little-endian `u32` when
`n ≤ 0xFFFFFFFF`; otherwise the byte `0xFF` followed by `n` as a
little-endian `u64`. -/
theorem encode_compact_size_spec (n : Nat) (hn : n < 2 ^ 64) :
    (n < 0xfd → encode_compact_size n = [n]) ∧
    (0xfd ≤ n → n ≤ 0xffff → encode_compact_size n = 0xfd :: toLeBytes 2 n) ∧
    (0xffff < n → n ≤ 0xffffffff →
      encode_compact_size n = 0xfe :: toLeBytes 4 n) ∧
    (0xffffffff < n → encode_compact_size n = 0xff :: toLeBytes 8 n) := by
  have h16 : (2 : Nat) ^ 16 = 256 ^ 2 := by norm_num
  have h32 : (2 : Nat) ^ 32 = 256 ^ 4 := by norm_num
  have h64 : (2 : Nat) ^ 64 = 256 ^ 8 := by norm_num
  refine ⟨?_, ?_, ?_, ?_⟩
  · intro h
    rw [encode_compact_size, if_pos h, Nat.mod_eq_of_lt (by omega)]
  · intro h1 h2
    rw [encode_compact_size, if_neg (by omega), if_pos h2, h16,
      toLeBytes_mod 2 n 2 le_rfl]
  · intro h1 h2
    rw [encode_compact_size, if_neg (by omega), if_neg (by omega), if_pos h2,
      h32, toLeBytes_mod 4 n 4 le_rfl]
  · intro h1
    rw [encode_compact_size, if_neg (by omega), if_neg (by omega),
      if_neg (by omega), h64, toLeBytes_mod 8 n 8 le_rfl]

/-- Witness for C7, at `n = 300` (the `0xFD` branch). -/
theorem encode_compact_size_spec_witness :
    300 < 2 ^ 64 ∧ encode_compact_size 300 = 0xfd :: toLeBytes 2 300 :=
  ⟨by norm_num,
   (encode_compact_size_spec 300 (by norm_num)).2.1 (by norm_num) (by norm_num)⟩

/-! Claim C8: `Work::set_big_nonce` idempotence and frame. -/

/-- C8: for every `Work` with its 160-byte header and all 64-bit values `a`
and `b`: setting the big-nonce `a` twice yields the same `Work` (hence the
same header) as setting it once, and setting `b` after `a` changes no header
bytes outside [44..52) — the prefix [0..44), the suffix [52..160) and the
header length are preserved — and leaves `target` and `nonce_idx`
unchanged. -/
theorem set_big_nonce_frame (w : Work) (a b : Nat)
    (hlen : w.header.length = 160) :
    (w.set_big_nonce a).set_big_nonce a = w.set_big_nonce a ∧
    ((w.set_big_nonce a).set_big_nonce b).target = (w.set_big_nonce a).target ∧
    ((w.set_big_nonce a).set_big_nonce b).nonce_idx =
      (w.set_big_nonce a).nonce_idx ∧
    ((w.set_big_nonce a).set_big_nonce b).header.take 44 =
      (w.set_big_nonce a).header.take 44 ∧
    ((w.set_big_nonce a).set_big_nonce b).header.drop 52 =
      (w.set_big_nonce a).header.drop 52 ∧
    ((w.set_big_nonce a).set_big_nonce b).header.length =
      (w.set_big_nonce a).header.length := by
  have ht1 : ∀ n : Nat,
      (w.header.take 44 ++ toLeBytes 8 n ++ w.header.drop 52).take 44 =
        w.header.take 44 := by
    intro n
    rw [List.append_assoc]
    exact take_append_of_length _ _ _ (by simp [hlen])
  have hd1 : ∀ n : Nat,
      (w.header.take 44 ++ toLeBytes 8 n ++ w.header.drop 52).drop 52 =
        w.header.drop 52 := by
    intro n
    exact drop_append_of_length _ _ _
      (by simp [hlen, toLeBytes_length])
  refine ⟨?_, rfl, rfl, ?_, ?_, ?_⟩
  · cases w with
    | mk header target nonce_idx =>
        simp only [Work.set_big_nonce] at *
        congr 1
        rw [ht1 a, hd1 a]
  · simp only [Work.set_big_nonce]
    rw [ht1 a, hd1 a]
    exact ht1 b
  · simp only [Work.set_big_nonce]
    rw [ht1 a, hd1 a]
    exact hd1 b
  · simp only [Work.set_big_nonce]
    rw [ht1 a, hd1 a]
    simp [toLeBytes_length]

/-- Witness for C8 at a concrete all-zero 160-byte header with `a = 1`,
`b = 2`. -/
theorem set_big_nonce_frame_witness :
    ((Work.from_header (List.replicate 160 0) (List.replicate 32 0)).set_big_nonce
        1).set_big_nonce 1 =
      (Work.from_header (List.replicate 160 0) (List.replicate 32 0)).set_big_nonce
        1 ∧
    (((Work.from_header (List.replicate 160 0) (List.replicate 32 0)).set_big_nonce
          1).set_big_nonce 2).target =
      ((Work.from_header (List.replicate 160 0) (List.replicate 32 0)).set_big_nonce
          1).target ∧
    (((Work.from_header (List.replicate 160 0) (List.replicate 32 0)).set_big_nonce
          1).set_big_nonce 2).nonce_idx =
      ((Work.from_header (List.replicate 160 0) (List.replicate 32 0)).set_big_nonce
          1).nonce_idx ∧
    (((Work.from_header (List.replicate 160 0) (List.replicate 32 0)).set_big_nonce
          1).set_big_nonce 2).header.take 44 =
      ((Work.from_header (List.replicate 160 0) (List.replicate 32 0)).set_big_nonce
          1).header.take 44 ∧
    (((Work.from_header (List.replicate 160 0) (List.replicate 32 0)).set_big_nonce
          1).set_big_nonce 2).header.drop 52 =
      ((Work.from_header (List.replicate 160 0) (List.replicate 32 0)).set_big_nonce
          1).header.drop 52 ∧
    (((Work.from_header (List.replicate 160 0) (List.replicate 32 0)).set_big_nonce
          1).set_big_nonce 2).header.length =
      ((Work.from_header (List.replicate 160 0) (List.replicate 32 0)).set_big_nonce
          1).header.length :=
  set_big_nonce_frame
    (Work.from_header (List.replicate 160 0) (List.replicate 32 0)) 1 2
    (by simp [Work.from_header])

/-! Claim C4: overflow handling in the `find_nonce` base computation. -/

/-- Counterexample for C4: under `c4Settings` (`kernel_size = 2 ^ 30`,
`inner_iter_size = 8`) and `c4Work` (`nonce_idx = 1`), the multiplication
`nonce_idx × (kernel_size × inner_iter_size) = 2 ^ 33` overflows 32 bits,
yet `find_nonce` does not return `Ok(None)` — the `try_into().unwrap()`
panics (modelled as `Except.error ()`). -/
theorem find_nonce_base_claim_cex :
    2 ^ 32 ≤ c4Work.nonce_idx * num_nonces_per_search c4Settings ∧
    findNonceBase c4Settings c4Work = .error () ∧
    findNonceBase c4Settings c4Work ≠ .ok none := by
  have h2 : findNonceBase c4Settings c4Work = .error () := rfl
  refine ⟨by decide, h2, ?_⟩
  intro h
  rw [h2] at h
  exact Except.noConfusion h

/-- C4 (amended): for every settings and work such that
`num_nonces_per_search = kernel_size × inner_iter_size` fits in a `u32`,
when the multiplication `nonce_idx × num_nonces_per_search` overflows 32
bits, `find_nonce` logs an error and returns `Ok(None)`; when
`num_nonces_per_search` itself does not fit in 32 bits the conversion
`try_into().unwrap()` panics instead. -/
theorem find_nonce_base_overflow_ok_none (s : MiningSettings) (w : Work)
    (hfit : num_nonces_per_search s < 2 ^ 32)
    (hovf : 2 ^ 32 ≤ w.nonce_idx * num_nonces_per_search s) :
    findNonceBase s w = .ok none := by
  have h1 : tryIntoU32 (num_nonces_per_search s) =
      some (num_nonces_per_search s) := by
    rw [tryIntoU32, if_pos hfit]
  have h2 : checkedMulU32 w.nonce_idx (num_nonces_per_search s) = none := by
    rw [checkedMulU32, if_neg (by omega)]
  simp only [findNonceBase, h1, h2]

/-- Witness for C4's amended theorem: `kernel_size = 2 ^ 20`,
`inner_iter_size = 2`, `nonce_idx = 2 ^ 11`. -/
theorem find_nonce_base_overflow_ok_none_witness :
    num_nonces_per_search
        { local_work_size := 64, kernel_size := 2 ^ 20, inner_iter_size := 2,
          sleep := 0, gpu_indices := [0], kernel_type := .LotusOG } < 2 ^ 32 ∧
    2 ^ 32 ≤ (2 ^ 11) * num_nonces_per_search
        { local_work_size := 64, kernel_size := 2 ^ 20, inner_iter_size := 2,
          sleep := 0, gpu_indices := [0], kernel_type := .LotusOG } ∧
    findNonceBase
        { local_work_size := 64, kernel_size := 2 ^ 20, inner_iter_size := 2,
          sleep := 0, gpu_indices := [0], kernel_type := .LotusOG }
        { header := [], target := [], nonce_idx := 2 ^ 11 } = .ok none :=
  ⟨by decide, by decide,
   find_nonce_base_overflow_ok_none
     { local_work_size := 64, kernel_size := 2 ^ 20, inner_iter_size := 2,
       sleep := 0, gpu_indices := [0], kernel_type := .LotusOG }
     { header := [], target := [], nonce_idx := 2 ^ 11 }
     (by decide) (by decide)⟩

/-! Claim C10: `has_nonces_left` ignores `inner_iter_size`. -/

/-- C10: `has_nonces_left` returns true exactly when
`nonce_idx × kernel_size` fits in a `u32` (no mention of
`inner_iter_size`); consequently there are settings with
`inner_iter_size > 1` and a work for which `has_nonces_left` is true while
`find_nonce`'s base computation overflows and takes the no-nonce branch. -/
theorem has_nonces_left_iff_and_gap :
    (∀ (s : MiningSettings) (w : Work),
        has_nonces_left s w = true ↔ w.nonce_idx * s.kernel_size < 2 ^ 32) ∧
    (∃ (s : MiningSettings) (w : Work), 1 < s.inner_iter_size ∧
        has_nonces_left s w = true ∧ findNonceBase s w = .ok none) := by
  constructor
  · intro s w
    rw [has_nonces_left, checkedMulU32]
    constructor
    · intro h
      by_contra hc
      rw [if_neg hc] at h
      simp at h
    · intro h
      rw [if_pos h]
      rfl
  · refine ⟨{ local_work_size := 64, kernel_size := 2 ^ 20,
              inner_iter_size := 2, sleep := 0, gpu_indices := [0],
              kernel_type := .LotusOG },
            { header := [], target := [], nonce_idx := 2 ^ 11 },
            by norm_num, by decide, rfl⟩

/-! Claim C6: determinism of `create_genesis_block`. -/

/-- C6: `create_genesis_block` is deterministic — for every pair of ambient
environments and every `(n_bits, n_time, target)`, two invocations with the
same inputs produce byte-identical headers (160 bytes long whenever the hash
function returns 32-byte digests) and byte-identical bodies; the
construction reads neither clock nor randomness. -/
theorem create_genesis_block_deterministic (e1 e2 : Env)
    (sha : List Nat → List Nat) (n_bits n_time : Nat) (target : List Nat)
    (hsha : ∀ d, (sha d).length = 32) :
    (create_genesis_block e1 sha n_bits n_time target).header =
      (create_genesis_block e2 sha n_bits n_time target).header ∧
    (create_genesis_block e1 sha n_bits n_time target).body =
      (create_genesis_block e2 sha n_bits n_time target).body ∧
    (create_genesis_block e1 sha n_bits n_time target).header.length = 160 := by
  refine ⟨rfl, rfl, ?_⟩
  have hmr : (compute_merkle_root sha [create_genesis_transaction]).length = 32 := by
    rw [compute_merkle_root]
    simp only [List.isEmpty_cons, Bool.false_eq_true, if_false, List.map_cons,
      List.map_nil]
    rw [merkleLoop]
    simp [merkleLeaf, sha256d, hsha]
  simp only [create_genesis_block, build_genesis_block_header,
    compute_serialize_hash]
  simp [List.length_append, toLeBytes_length, hsha, hmr]

/-- Witness for C6 at two distinct environments and a constant 32-byte hash
function. -/
theorem create_genesis_block_deterministic_witness :
    (create_genesis_block ⟨0, 0⟩ (fun _ => List.replicate 32 0) 0x1c100000
        1624246260 (List.replicate 32 0xff)).header =
      (create_genesis_block ⟨7, 7⟩ (fun _ => List.replicate 32 0) 0x1c100000
        1624246260 (List.replicate 32 0xff)).header ∧
    (create_genesis_block ⟨0, 0⟩ (fun _ => List.replicate 32 0) 0x1c100000
        1624246260 (List.replicate 32 0xff)).body =
      (create_genesis_block ⟨7, 7⟩ (fun _ => List.replicate 32 0) 0x1c100000
        1624246260 (List.replicate 32 0xff)).body ∧
    (create_genesis_block ⟨0, 0⟩ (fun _ => List.replicate 32 0) 0x1c100000
        1624246260 (List.replicate 32 0xff)).header.length = 160 :=
  create_genesis_block_deterministic ⟨0, 0⟩ ⟨7, 7⟩ _ _ _ _
    (fun d => by simp)

/-! Claim C3: `create_block`. -/

theorem create_block_err_hex (u : RawUnsolvedBlockAndTarget)
    (h : hexDecode u.blockhex = none) :
    create_block u = .error .InvalidBlockHex := by
  simp [create_block, h]

theorem create_block_err_short (u : RawUnsolvedBlockAndTarget)
    (block : List Nat) (h1 : hexDecode u.blockhex = some block)
    (h2 : block.length < 160) :
    create_block u = .error (.BlockTooShort block.length) := by
  simp [create_block, h1, h2]

theorem create_block_err_thex (u : RawUnsolvedBlockAndTarget)
    (block : List Nat) (h1 : hexDecode u.blockhex = some block)
    (h2 : ¬block.length < 160) (h3 : hexDecode u.target = none) :
    create_block u = .error .InvalidTargetHex := by
  simp [create_block, h1, h2, h3]

theorem create_block_err_tlen (u : RawUnsolvedBlockAndTarget)
    (block target_bytes : List Nat) (h1 : hexDecode u.blockhex = some block)
    (h2 : ¬block.length < 160) (h3 : hexDecode u.target = some target_bytes)
    (h4 : target_bytes.length ≠ 32) :
    create_block u = .error (.InvalidTargetLength target_bytes.length) := by
  simp [create_block, h1, h2, h3, h4]

theorem create_block_eq_ok (u : RawUnsolvedBlockAndTarget)
    (block target_bytes : List Nat) (h1 : hexDecode u.blockhex = some block)
    (h2 : ¬block.length < 160) (h3 : hexDecode u.target = some target_bytes)
    (h4 : target_bytes.length = 32) :
    create_block u =
      .ok { header := block.take 160
            body := block.drop 160
            target := target_bytes.reverse } := by
  simp [create_block, h1, h2, h3, h4]

/-- C3: `create_block` returns `Ok` exactly when `blockhex` decodes as hex
to at least 160 bytes and `target` decodes as hex to exactly 32 bytes; on
success the block's header is the first 160 decoded bytes, its body the
remaining bytes (so `header ++ body` equals the decoded `blockhex`
byte-for-byte) and its target the 32 decoded target bytes reversed; on any
other input it returns the corresponding `BlockParseError`. -/
theorem create_block_spec (u : RawUnsolvedBlockAndTarget) :
    ((∃ blk, create_block u = .ok blk) ↔
      (∃ block target_bytes, hexDecode u.blockhex = some block ∧
        160 ≤ block.length ∧ hexDecode u.target = some target_bytes ∧
        target_bytes.length = 32)) ∧
    (∀ blk block target_bytes, create_block u = .ok blk →
      hexDecode u.blockhex = some block →
      hexDecode u.target = some target_bytes →
      blk.header = block.take 160 ∧ blk.body = block.drop 160 ∧
      blk.header ++ blk.body = block ∧ blk.target = target_bytes.reverse) ∧
    (hexDecode u.blockhex = none →
      create_block u = .error .InvalidBlockHex) ∧
    (∀ block, hexDecode u.blockhex = some block → block.length < 160 →
      create_block u = .error (.BlockTooShort block.length)) ∧
    (∀ block, hexDecode u.blockhex = some block → 160 ≤ block.length →
      hexDecode u.target = none → create_block u = .error .InvalidTargetHex) ∧
    (∀ block target_bytes, hexDecode u.blockhex = some block →
      160 ≤ block.length → hexDecode u.target = some target_bytes →
      target_bytes.length ≠ 32 →
      create_block u = .error (.InvalidTargetLength target_bytes.length)) := by
  refine ⟨⟨?_, ?_⟩, ?_, ?_, ?_, ?_, ?_⟩
  · rintro ⟨blk, hok⟩
    cases h1 : hexDecode u.blockhex with
    | none => rw [create_block_err_hex u h1] at hok; exact Except.noConfusion hok
    | some block =>
        by_cases h2 : block.length < 160
        · rw [create_block_err_short u block h1 h2] at hok
          exact Except.noConfusion hok
        · cases h3 : hexDecode u.target with
          | none =>
              rw [create_block_err_thex u block h1 h2 h3] at hok
              exact Except.noConfusion hok
          | some target_bytes =>
              by_cases h4 : target_bytes.length = 32
              · exact ⟨block, target_bytes, rfl, by omega, rfl, h4⟩
              · rw [create_block_err_tlen u block target_bytes h1 h2 h3 h4] at hok
                exact Except.noConfusion hok
  · rintro ⟨block, target_bytes, h1, h2, h3, h4⟩
    exact ⟨_, create_block_eq_ok u block target_bytes h1 (by omega) h3 h4⟩
  · intro blk block target_bytes hok h1 h3
    by_cases h2 : block.length < 160
    · rw [create_block_err_short u block h1 h2] at hok
      exact Except.noConfusion hok
    · by_cases h4 : target_bytes.length = 32
      · rw [create_block_eq_ok u block target_bytes h1 h2 h3 h4] at hok
        have hblk := Except.ok.inj hok
        subst hblk
        exact ⟨rfl, rfl, List.take_append_drop 160 block, rfl⟩
      · rw [create_block_err_tlen u block target_bytes h1 h2 h3 h4] at hok
        exact Except.noConfusion hok
  · exact create_block_err_hex u
  · exact fun block h1 h2 => create_block_err_short u block h1 h2
  · intro block h1 h2 h3
    exact create_block_err_thex u block h1 (by omega) h3
  · intro block target_bytes h1 h2 h3 h4
    exact create_block_err_tlen u block target_bytes h1 (by omega) h3 h4

set_option maxRecDepth 8000 in
/-- Witness for C3: a 320-hex-digit zero block and a 64-hex-digit zero
target parse successfully. -/
theorem create_block_spec_witness :
    ∃ blk, create_block { blockhex := zeroBlockHex, target := zeroTargetHex }
      = .ok blk :=
  (create_block_spec _).1.mpr
    ⟨List.replicate 160 0, List.replicate 32 0, by decide, by simp, by decide,
     by simp⟩

/-! Claim C5: failure semantics of `update_next_block`. -/

set_option maxRecDepth 8000 in
/-- Counterexample for C5: a non-2xx HTTP status (500) whose body is
nevertheless fully parseable does mutate `BlockState` — `next_block` is
replaced — refuting the claim that every non-2xx response returns without
mutating state. -/
theorem update_next_block_claim_cex :
    (500 < 200 ∨ 299 < 500) ∧
    (update_next_block 500 (some c5Response) c5State).next_block ≠
      c5State.next_block := by
  exact ⟨by norm_num, by decide⟩

/-- C5 (amended): whenever the response body fails to parse — invalid JSON,
a missing `result`, or any `create_block` failure (bad block hex, wrong
target length, block shorter than 160 bytes) — `update_next_block` returns
without mutating `BlockState` (entire state unchanged, hence `next_block`,
`current_block`, `current_work` and `extra_nonce` unchanged) and propagates
no error, regardless of the HTTP status; a non-2xx status alone, with a
fully parseable body, does not prevent the state update. -/
theorem update_next_block_parse_failure_no_mutation (status : Nat)
    (st : BlockState) :
    (update_next_block status none st = st) ∧
    (∀ r : GetRawUnsolvedBlockResponse, r.result = none →
      update_next_block status (some r) st = st) ∧
    (∀ (r : GetRawUnsolvedBlockResponse) (ub : RawUnsolvedBlockAndTarget)
        (e : BlockParseError), r.result = some ub →
      create_block ub = .error e →
      update_next_block status (some r) st = st) := by
  refine ⟨rfl, ?_, ?_⟩
  · intro r hr
    simp [update_next_block, hr]
  · intro r ub e hr he
    simp [update_next_block, hr, he]

/-- Witness for C5's amended theorem: a parsed response with `result: None`
leaves the concrete state `c5State` untouched under status 500. -/
theorem update_next_block_parse_failure_no_mutation_witness :
    update_next_block 500 (some { result := none, error := none }) c5State =
      c5State :=
  (update_next_block_parse_failure_no_mutation 500 c5State).2.1
    { result := none, error := none } rfl

/-! Claims C1 and C9: the `find_nonce` hash/target comparison. -/

theorem cmpLoop_cons_lt (h t : Nat) (rest : List (Nat × Nat)) (hlt : h < t) :
    cmpLoop ((h, t) :: rest) = true := by
  simp only [cmpLoop]
  rw [if_neg (by omega), if_pos hlt]

theorem cmpLoop_cons_gt (h t : Nat) (rest : List (Nat × Nat)) (hgt : t < h) :
    cmpLoop ((h, t) :: rest) = false := by
  simp only [cmpLoop]
  rw [if_pos hgt]

theorem cmpLoop_cons_eq (h : Nat) (rest : List (Nat × Nat)) :
    cmpLoop ((h, h) :: rest) = cmpLoop rest := by
  simp only [cmpLoop]
  rw [if_neg (by omega), if_neg (by omega)]

theorem cmpLoop_append (p q : List (Nat × Nat)) :
    cmpLoop (p ++ q) =
      if ∀ x ∈ p, x.1 = x.2 then cmpLoop q else cmpLoop p := by
  induction p with
  | nil => simp
  | cons x rest ih =>
      obtain ⟨h, t⟩ := x
      rcases Nat.lt_trichotomy h t with hlt | heq | hgt
      · have hno : ¬∀ x ∈ (h, t) :: rest, x.1 = x.2 := by
          intro hall
          have := hall (h, t) (by simp)
          simp at this
          omega
        rw [List.cons_append, cmpLoop_cons_lt _ _ _ hlt, if_neg hno,
          cmpLoop_cons_lt _ _ _ hlt]
      · subst heq
        rw [List.cons_append, cmpLoop_cons_eq, ih]
        by_cases hall : ∀ x ∈ rest, x.1 = x.2
        · rw [if_pos hall, if_pos ?_]
          intro x hx
          rcases List.mem_cons.mp hx with hx1 | hx2
          · rw [hx1]
          · exact hall x hx2
        · rw [if_neg hall, if_neg ?_, cmpLoop_cons_eq]
          intro hc
          exact hall (fun x hx => hc x (List.mem_cons_of_mem _ hx))
      · have hno : ¬∀ x ∈ (h, t) :: rest, x.1 = x.2 := by
          intro hall
          have := hall (h, t) (by simp)
          simp at this
          omega
        rw [List.cons_append, cmpLoop_cons_gt _ _ _ hgt, if_neg hno,
          cmpLoop_cons_gt _ _ _ hgt]

theorem zip_self_eq (l : List Nat) : ∀ p ∈ l.zip l, p.1 = p.2 := by
  induction l with
  | nil => simp
  | cons x xs ih =>
      intro p hp
      rw [List.zip_cons_cons] at hp
      rcases List.mem_cons.mp hp with h1 | h2
      · rw [h1]
      · exact ih p h2

theorem all_eq_zip_iff (a b : List Nat) (hlen : a.length = b.length) :
    (∀ x ∈ a.zip b, x.1 = x.2) ↔ a = b := by
  induction a generalizing b with
  | nil =>
      cases b with
      | nil => simp
      | cons y ys => simp at hlen
  | cons x xs ih =>
      cases b with
      | nil => simp at hlen
      | cons y ys =>
          constructor
          · intro hall
            have hx : x = y := by
              have := hall (x, y) (by rw [List.zip_cons_cons]; simp)
              simpa using this
            have hxs : xs = ys :=
              (ih ys (by simpa using hlen)).mp (fun p hp =>
                hall p (by rw [List.zip_cons_cons]; exact List.mem_cons_of_mem _ hp))
            rw [hx, hxs]
          · intro he
            rw [he]
            exact zip_self_eq (y :: ys)

theorem fromLeBytes_inj (a : List Nat) : ∀ b : List Nat,
    a.length = b.length → (∀ x ∈ a, x < 256) → (∀ x ∈ b, x < 256) →
    fromLeBytes a = fromLeBytes b → a = b := by
  induction a with
  | nil =>
      intro b hlen _ _ _
      cases b with
      | nil => rfl
      | cons y ys => simp at hlen
  | cons x xs ih =>
      intro b hlen ha hb heq
      cases b with
      | nil => simp at hlen
      | cons y ys =>
          rw [fromLeBytes_cons, fromLeBytes_cons] at heq
          have hx : x < 256 := ha x (by simp)
          have hy : y < 256 := hb y (by simp)
          have hxy : x = y := by omega
          have hrest : fromLeBytes xs = fromLeBytes ys := by omega
          rw [hxy, ih ys (by simpa using hlen)
            (fun z hz => ha z (by simp [hz]))
            (fun z hz => hb z (by simp [hz])) hrest]

/-- The comparison loop over the reversed byte pairs accepts exactly when the
hash, read as a little-endian 256-bit integer, is strictly below the
target. -/
theorem cmpLoop_zip_reverse_iff (a : List Nat) : ∀ b : List Nat,
    a.length = b.length → (∀ x ∈ a, x < 256) → (∀ x ∈ b, x < 256) →
    (cmpLoop ((a.zip b).reverse) = true ↔ fromLeBytes a < fromLeBytes b) := by
  induction a with
  | nil =>
      intro b hlen _ _
      cases b with
      | nil => simp [cmpLoop, fromLeBytes]
      | cons y ys => simp at hlen
  | cons x xs ih =>
      intro b hlen ha hb
      cases b with
      | nil => simp at hlen
      | cons y ys =>
          have hlen' : xs.length = ys.length := by simpa using hlen
          have haxs : ∀ z ∈ xs, z < 256 := fun z hz => ha z (by simp [hz])
          have hbys : ∀ z ∈ ys, z < 256 := fun z hz => hb z (by simp [hz])
          have hxb : x < 256 := ha x (by simp)
          have hyb : y < 256 := hb y (by simp)
          rw [List.zip_cons_cons, List.reverse_cons, cmpLoop_append,
            fromLeBytes_cons, fromLeBytes_cons]
          by_cases hall : ∀ p ∈ (xs.zip ys).reverse, p.1 = p.2
          · rw [if_pos hall]
            have hxs : xs = ys := (all_eq_zip_iff xs ys hlen').mp
              (fun p hp => hall p (List.mem_reverse.mpr hp))
            subst hxs
            constructor
            · intro hc
              rcases Nat.lt_trichotomy x y with h1 | h2 | h3
              · omega
              · subst h2
                rw [cmpLoop_cons_eq] at hc
                exact absurd hc (by simp [cmpLoop])
              · rw [cmpLoop_cons_gt _ _ _ h3] at hc
                exact absurd hc (by simp)
            · intro hlt
              exact cmpLoop_cons_lt _ _ _ (by omega)
          · rw [if_neg hall]
            have hne : xs ≠ ys := by
              intro hcontra
              subst hcontra
              exact hall (fun p hp => zip_self_eq xs p (List.mem_reverse.mp hp))
            have hAB : fromLeBytes xs ≠ fromLeBytes ys := fun he =>
              hne (fromLeBytes_inj xs ys hlen' haxs hbys he)
            rw [ih ys hlen' haxs hbys]
            omega

theorem findNonceLoop_eq_some (lotusHash : List Nat → List Nat) (work : Work)
    (ws : List Nat) (n : Nat)
    (hfound : findNonceLoop lotusHash work ws = some n) :
    ∃ c, c < 2 ^ 32 ∧ c ≠ 0 ∧
      cmpLoop (((lotusHash (candidateHeader work.header c)).zip
        work.target).reverse) = true ∧
      n = fromLeBytes (((candidateHeader work.header c).drop 44).take 8) := by
  induction ws with
  | nil => simp [findNonceLoop] at hfound
  | cons w ws ih =>
      simp only [findNonceLoop] at hfound
      split at hfound
      · split at hfound
        · rename_i hne hcmp
          exact ⟨swapBytes32 w, swapBytes32_lt w, hne, hcmp,
            (Option.some.inj hfound).symm⟩
        · exact ih hfound
      · exact ih hfound

theorem take_eq_self_of_length_le (l : List Nat) (n : Nat)
    (h : l.length ≤ n) : l.take n = l :=
  List.take_of_length_le h

theorem candidateHeader_nonce_bytes (h : List Nat) (c : Nat)
    (hlen : h.length = 160) (hc : c < 2 ^ 32) :
    fromLeBytes (((candidateHeader h c).drop 44).take 8) =
      c + 2 ^ 32 * fromLeBytes ((h.drop 48).take 4) := by
  rw [candidateHeader]
  have hdrop : (h.take 44 ++ toLeBytes 4 c ++ h.drop 48).drop 44 =
      toLeBytes 4 c ++ h.drop 48 := by
    rw [List.append_assoc]
    exact drop_append_of_length _ _ _ (by simp [hlen])
  rw [hdrop, List.take_append_eq_append_take,
    take_eq_self_of_length_le _ _ (by simp [toLeBytes_length]),
    fromLeBytes_append, toLeBytes_length,
    fromLeBytes_toLeBytes 4 c (by norm_num; omega)]
  norm_num

/-- C1: whenever `find_nonce` returns `Some(nonce)`, splicing the low 32
bits of that nonce into header bytes [44..48) (keeping [48..52) from the
work's big-nonce base) and hashing the 160-byte header with `lotus_hash`
yields a hash that the byte-by-byte comparison from index 31 down to 0
accepts — the first differing position has `hash[i] < target[i]` — and
whose 256-bit value is less than or equal to the target's. -/
theorem find_nonce_result_below_target (lotusHash : List Nat → List Nat)
    (work : Work) (vec : List Nat) (n : Nat)
    (hhlen : work.header.length = 160)
    (htlen : work.target.length = 32)
    (htb : ∀ b ∈ work.target, b < 256)
    (hashlen : ∀ d, (lotusHash d).length = 32)
    (hashb : ∀ d, ∀ b ∈ lotusHash d, b < 256)
    (hfound : findNonceVerify lotusHash work vec = some n) :
    cmpLoop (((lotusHash (candidateHeader work.header (n % 2 ^ 32))).zip
      work.target).reverse) = true ∧
    fromLeBytes (lotusHash (candidateHeader work.header (n % 2 ^ 32))) ≤
      fromLeBytes work.target := by
  rw [findNonceVerify] at hfound
  split at hfound
  · obtain ⟨c, hc, hne, hcmp, hn⟩ :=
      findNonceLoop_eq_some lotusHash work _ n hfound
    have hkey : n % 2 ^ 32 = c := by
      rw [hn, candidateHeader_nonce_bytes work.header c hhlen hc,
        Nat.add_mul_mod_self_left, Nat.mod_eq_of_lt hc]
    rw [hkey]
    refine ⟨hcmp, le_of_lt ?_⟩
    exact (cmpLoop_zip_reverse_iff (lotusHash (candidateHeader work.header c))
      work.target (by rw [hashlen, htlen]) (hashb _) htb).mp hcmp
  · exact Option.noConfusion hfound

set_option maxRecDepth 8000 in
/-- Witness for C1: a constant zero hash, an all-zero header, a target with
its most significant byte set, and a GPU buffer full of ones produce the
accepted nonce `2 ^ 24`. -/
theorem find_nonce_result_below_target_witness :
    cmpLoop (((cHash (candidateHeader cWork.header (2 ^ 24 % 2 ^ 32))).zip
      cWork.target).reverse) = true ∧
    fromLeBytes (cHash (candidateHeader cWork.header (2 ^ 24 % 2 ^ 32))) ≤
      fromLeBytes cWork.target :=
  find_nonce_result_below_target cHash cWork cVec (2 ^ 24)
    (by simp [cWork]) (by simp [cWork])
    (by intro b hb; simp [cWork] at hb; omega)
    (fun d => by simp [cHash])
    (by intro d b hb; simp [cHash] at hb; omega)
    (by decide)

/-- C9: acceptance is strict — whenever `find_nonce` returns `Some(nonce)`,
the Lotus hash of the spliced header is never byte-for-byte equal to the
stored target (an all-equal comparison falls through to the next candidate),
and its 256-bit value is strictly below the target's. -/
theorem find_nonce_result_strictly_below (lotusHash : List Nat → List Nat)
    (work : Work) (vec : List Nat) (n : Nat)
    (hhlen : work.header.length = 160)
    (htlen : work.target.length = 32)
    (htb : ∀ b ∈ work.target, b < 256)
    (hashlen : ∀ d, (lotusHash d).length = 32)
    (hashb : ∀ d, ∀ b ∈ lotusHash d, b < 256)
    (hfound : findNonceVerify lotusHash work vec = some n) :
    lotusHash (candidateHeader work.header (n % 2 ^ 32)) ≠ work.target ∧
    fromLeBytes (lotusHash (candidateHeader work.header (n % 2 ^ 32))) <
      fromLeBytes work.target := by
  rw [findNonceVerify] at hfound
  split at hfound
  · obtain ⟨c, hc, hne, hcmp, hn⟩ :=
      findNonceLoop_eq_some lotusHash work _ n hfound
    have hkey : n % 2 ^ 32 = c := by
      rw [hn, candidateHeader_nonce_bytes work.header c hhlen hc,
        Nat.add_mul_mod_self_left, Nat.mod_eq_of_lt hc]
    rw [hkey]
    have hlt : fromLeBytes (lotusHash (candidateHeader work.header c)) <
        fromLeBytes work.target :=
      (cmpLoop_zip_reverse_iff (lotusHash (candidateHeader work.header c))
        work.target (by rw [hashlen, htlen]) (hashb _) htb).mp hcmp
    refine ⟨?_, hlt⟩
    intro heq
    rw [heq] at hlt
    omega
  · exact Option.noConfusion hfound

set_option maxRecDepth 8000 in
/-- Witness for C9 at the same concrete inputs as the C1 witness. -/
theorem find_nonce_result_strictly_below_witness :
    cHash (candidateHeader cWork.header (2 ^ 24 % 2 ^ 32)) ≠ cWork.target ∧
    fromLeBytes (cHash (candidateHeader cWork.header (2 ^ 24 % 2 ^ 32))) <
      fromLeBytes cWork.target :=
  find_nonce_result_strictly_below cHash cWork cVec (2 ^ 24)
    (by simp [cWork]) (by simp [cWork])
    (by intro b hb; simp [cWork] at hb; omega)
    (fun d => by simp [cHash])
    (by intro d b hb; simp [cHash] at hb; omega)
    (by decide)

/-! Claim C2: `bits_to_target`. -/

theorem getD_set' (l : List Nat) (i j v : Nat) :
    (l.set i v).getD j 0 = if i = j ∧ j < l.length then v else l.getD j 0 := by
  by_cases hj : j < l.length
  · rw [List.getD_eq_getElem _ _ (by simpa using hj), List.getElem_set]
    by_cases hij : i = j
    · simp [hij, hj]
    · simp only [hij, if_false, false_and, if_neg]
      rw [List.getD_eq_getElem _ _ hj]
  · rw [List.getD_eq_default _ _ (by simpa using Nat.not_lt.mp hj),
      List.getD_eq_default _ _ (Nat.not_lt.mp hj)]
    simp [hj]

theorem getD_replicate (v k j : Nat) (h : j < k) :
    (List.replicate k v).getD j 0 = v := by
  rw [List.getD_eq_getElem _ _ (by simpa using h)]
  simp

theorem foldl_set_zero_length (t : List Nat) (k : Nat) :
    ((List.range k).foldl (fun l i => l.set i 0) t).length = t.length := by
  induction k with
  | zero => simp
  | succ m ih =>
      rw [List.range_succ, List.foldl_append, List.foldl_cons, List.foldl_nil,
        List.length_set, ih]

theorem foldl_set_zero_getD (t : List Nat) (k j : Nat) :
    ((List.range k).foldl (fun l i => l.set i 0) t).getD j 0 =
      if j < k ∧ j < t.length then 0 else t.getD j 0 := by
  induction k with
  | zero => simp
  | succ m ih =>
      rw [List.range_succ, List.foldl_append, List.foldl_cons, List.foldl_nil,
        getD_set', foldl_set_zero_length]
      by_cases h1 : m = j ∧ j < t.length
      · rw [if_pos h1, if_pos (by omega)]
      · rw [if_neg h1, ih]
        by_cases h2 : j < m ∧ j < t.length
        · rw [if_pos h2, if_pos (by omega)]
        · rw [if_neg h2, if_neg (by omega)]

theorem bits_to_target_length (bits : Nat) :
    (bits_to_target bits).length = 32 := by
  simp only [bits_to_target]
  split
  · simp
  · split
    · split
      · simp [List.length_set, foldl_set_zero_length]
      · simp [foldl_set_zero_length]
    · simp

/-- Counterexample for C2 at `bits = 0x04123456`: the array computed by
`bits_to_target` is not the zero-initialized array with the mantissa at
positions `[32 − exp − 3 .. 32 − exp)` claimed by the specification — the
code initializes the array to `0xff`, leaves the trailing bytes at `0xff`,
and places the mantissa at positions `[32 − exp .. 35 − exp)` instead. -/
theorem bits_to_target_claim_cex :
    bits_to_target 0x04123456 ≠ bitsToTargetClaimed 0x04123456 := by decide

set_option linter.unusedVariables false in
/-- C2 (amended): for every 32-bit `bits` with `exp = bits >> 24` and
`mant = bits & 0xFFFFFF`, `bits_to_target` returns a 32-byte array that is
initialized to `0xff` rather than zero; if `exp ≤ 3` the three bytes at
indices 29, 30, 31 hold `mant >> (8 × (3 − exp))` least-significant-first
and every other byte stays `0xff`; if `exp > 3` with `size = exp − 3`: when
`size ≥ 32` the array is all `0xff`; otherwise bytes at and above index
`offset = 32 − size = 35 − exp` stay `0xff`, and below that (when
`offset ≥ 3`, i.e. `exp ≤ 32`) the mantissa's three bytes sit
most-significant-first at positions `[32 − exp .. 35 − exp)` with zeros
before them. -/
theorem bits_to_target_bytes (bits : Nat) (hbits : bits < 2 ^ 32) :
    (bits_to_target bits).length = 32 ∧
    ∀ i, i < 32 →
      (bits_to_target bits).getD i 0 =
        (if bits / 2 ^ 24 ≤ 3 then
          (if i = 29 then bits % 2 ^ 24 / 256 ^ (3 - bits / 2 ^ 24) % 256
           else if i = 30 then
             bits % 2 ^ 24 / 256 ^ (3 - bits / 2 ^ 24) / 2 ^ 8 % 256
           else if i = 31 then
             bits % 2 ^ 24 / 256 ^ (3 - bits / 2 ^ 24) / 2 ^ 16 % 256
           else 0xff)
         else if 35 ≤ bits / 2 ^ 24 then 0xff
         else if 35 - bits / 2 ^ 24 ≤ i then 0xff
         else if bits / 2 ^ 24 ≤ 32 ∧ i + bits / 2 ^ 24 = 32 then
           bits % 2 ^ 24 / 2 ^ 16 % 256
         else if bits / 2 ^ 24 ≤ 32 ∧ i + bits / 2 ^ 24 = 33 then
           bits % 2 ^ 24 / 2 ^ 8 % 256
         else if bits / 2 ^ 24 ≤ 32 ∧ i + bits / 2 ^ 24 = 34 then
           bits % 2 ^ 24 % 256
         else 0) := by
  refine ⟨bits_to_target_length bits, ?_⟩
  intro i hi
  simp only [bits_to_target]
  by_cases hexp : bits / 2 ^ 24 ≤ 3
  · rw [if_pos hexp, if_pos hexp, getD_set', getD_set', getD_set']
    simp only [List.length_set, List.length_replicate]
    rw [getD_replicate 0xff 32 i hi]
    split_ifs <;> first | rfl | omega
  · rw [if_neg hexp, if_neg hexp]
    by_cases hsz : bits / 2 ^ 24 - 3 < 32
    · rw [if_pos hsz]
      by_cases hoff : 3 ≤ 32 - (bits / 2 ^ 24 - 3)
      · rw [if_pos hoff, getD_set', getD_set', getD_set']
        simp only [List.length_set, foldl_set_zero_length,
          List.length_replicate]
        rw [foldl_set_zero_getD]
        simp only [List.length_replicate]
        rw [getD_replicate 0xff 32 i hi]
        split_ifs <;> first | rfl | omega
      · rw [if_neg hoff, foldl_set_zero_getD]
        simp only [List.length_replicate]
        rw [getD_replicate 0xff 32 i hi]
        split_ifs <;> first | rfl | omega
    · rw [if_neg hsz, getD_replicate 0xff 32 i hi]
      rw [if_pos (by omega)]

/-- Witness for C2's amended theorem at the genesis difficulty
`bits = 0x1c100000`: byte 4 of the target (position `32 − exp` with
`exp = 0x1c`) is the mantissa's most significant byte `0x10`. -/
theorem bits_to_target_bytes_witness :
    (bits_to_target 0x1c100000).length = 32 ∧
    (bits_to_target 0x1c100000).getD 4 0 = 0x10 :=
  ⟨(bits_to_target_bytes 0x1c100000 (by norm_num)).1, by
    have h := (bits_to_target_bytes 0x1c100000 (by norm_num)).2 4 (by norm_num)
    norm_num at h
    exact h⟩

end LotusMiner
